import Mathlib

/-!
Verification of the S21 monitor's command-state tracking and change-detection
engine (`s21_common.py`): the `S21CommandTracker` class (`update_command`,
`get_sorted_commands`), the character-level `highlight_diff` algorithm, and the
`truncate_value` display helper, embedded shallowly in Lean.
-/

namespace S21

/-- Current state stored for one command: the dict
`{'value': ..., 'direction': ..., 'timestamp': ..., 'dump': ...}` written by
`S21CommandTracker.update_command`.  Timestamps are opaque to the tracker, so
they are modelled as natural numbers. -/
structure CommandState where
  value : String
  direction : String
  timestamp : Nat
  dump : String
deriving Repr, DecidableEq

/-- One entry of `recent_changes`: the `change_record` dict built inside
`update_command`. -/
structure ChangeRecord where
  command : String
  old_value : String
  new_value : String
  old_dump : String
  new_dump : String
  direction : String
  timestamp : Nat
  value_changed : Bool
  dump_changed : Bool
deriving Repr, DecidableEq

/-- The tracker's mutable state: the `commands` dict (modelled as an
association list with Python-dict update semantics: update in place when the
key is present, append otherwise) and the `recent_changes` list. -/
structure S21CommandTracker where
  commands : List (String × CommandState)
  recent_changes : List ChangeRecord
deriving Repr, DecidableEq

/-- Python dict lookup `d[k]` / `k in d` on the association-list model:
returns the value of the first (and, under the dict invariant, only) entry
with key `k`. -/
def dictGet (d : List (String × CommandState)) (k : String) : Option CommandState :=
  match d with
  | [] => none
  | (k', v') :: rest => if k' = k then some v' else dictGet rest k

/-- Python dict assignment `d[k] = v`: replace in place when the key is
present, append at the end otherwise. -/
def dictSet (d : List (String × CommandState)) (k : String) (v : CommandState) :
    List (String × CommandState) :=
  match d with
  | [] => [(k, v)]
  | (k', v') :: rest => if k' = k then (k, v) :: rest else (k', v') :: dictSet rest k v

/-- `S21CommandTracker.__init__`: empty command dict, empty change history. -/
def mkTracker : S21CommandTracker := { commands := [], recent_changes := [] }

/-- `S21CommandTracker.update_command(command, value, direction, timestamp, dump='')`.
Returns the updated tracker together with the `changed` boolean the method
returns. -/
def update_command (t : S21CommandTracker) (command value direction : String)
    (timestamp : Nat) (dump : String) : S21CommandTracker × Bool :=
  match dictGet t.commands command with
  | some old =>
      let value_changed := old.value != value
      let dump_changed := old.dump != dump
      let direction_changed := old.direction != direction
      let changed := value_changed || dump_changed || direction_changed
      let recent_changes :=
        if changed && (value_changed || dump_changed) then
          let change_record : ChangeRecord :=
            { command := command, old_value := old.value, new_value := value,
              old_dump := old.dump, new_dump := dump, direction := direction,
              timestamp := timestamp, value_changed := value_changed,
              dump_changed := dump_changed }
          let appended := t.recent_changes ++ [change_record]
          if appended.length > 5 then appended.drop 1 else appended
        else t.recent_changes
      ({ commands := dictSet t.commands command
           { value := value, direction := direction, timestamp := timestamp, dump := dump },
         recent_changes := recent_changes }, changed)
  | none =>
      ({ commands := dictSet t.commands command
           { value := value, direction := direction, timestamp := timestamp, dump := dump },
         recent_changes := t.recent_changes }, true)

/-- `S21CommandTracker.get_sorted_commands`: `sorted(self.commands.items())`,
i.e. the tracked pairs sorted by command identifier (keys are unique under the
dict invariant, so the tuple comparison never reaches the values). -/
def get_sorted_commands (t : S21CommandTracker) : List (String × CommandState) :=
  t.commands.mergeSort (fun a b => decide (a.1 ≤ b.1))

/-- One call to `update_command`, bundled so that sequences of calls can be
quantified over. -/
structure UpdateCall where
  command : String
  value : String
  direction : String
  timestamp : Nat
  dump : String
deriving Repr, DecidableEq

/-- The tracker state after one bundled call (discarding the returned bool). -/
def applyCall (t : S21CommandTracker) (u : UpdateCall) : S21CommandTracker :=
  (update_command t u.command u.value u.direction u.timestamp u.dump).1

/-- The tracker state after a whole sequence of `update_command` calls. -/
def applyCalls (t : S21CommandTracker) (calls : List UpdateCall) : S21CommandTracker :=
  calls.foldl applyCall t

/-- The `CommandState` that `update_command` writes for a given call. -/
def stateOf (u : UpdateCall) : CommandState :=
  { value := u.value, direction := u.direction, timestamp := u.timestamp, dump := u.dump }

/-- The most recent call in `calls` whose command equals `c`, if any. -/
def lastCallFor (calls : List UpdateCall) (c : String) : Option UpdateCall :=
  match calls with
  | [] => none
  | u :: rest =>
      match lastCallFor rest c with
      | some w => some w
      | none => if u.command = c then some u else none

/-- `orElseO a b` is `a` when `a` is `some`, else `b`. -/
def orElseO {α : Type} (a b : Option α) : Option α :=
  match a with
  | some x => some x
  | none => b

/-- The `change_record` dict that `update_command` builds when the tracked
prior state is `old` and the call is `u`. -/
def mkChangeRecord (old : CommandState) (u : UpdateCall) : ChangeRecord :=
  { command := u.command, old_value := old.value, new_value := u.value,
    old_dump := old.dump, new_dump := u.dump, direction := u.direction,
    timestamp := u.timestamp, value_changed := old.value != u.value,
    dump_changed := old.dump != u.dump }

/-- ANSI "invert colors" escape used by `highlight_diff` (`'\033[7m'`). -/
def INVERT : String := "\x1b[7m"

/-- ANSI "reset" escape used by `highlight_diff` (`'\033[0m'`). -/
def RESET : String := "\x1b[0m"

/-- A single character wrapped as `f"{INVERT}{c}{RESET}"`. -/
def wrap (c : Char) : String := INVERT ++ String.singleton c ++ RESET

/-- The tail of the position loop of `highlight_diff` once one string is
exhausted: every remaining character of the other string differs from the
absent character (`''`) at its position, so each is wrapped, and the exhausted
side contributes nothing. -/
def wrapRest : List Char → String
  | [] => ""
  | c :: cs => wrap c ++ wrapRest cs

/-- The position loop of `highlight_diff`, walking both character lists in
lockstep from position 0 to `max_len - 1`.  A missing character on one side
corresponds to Python's `old_char = ''` / `new_char = ''`: the present
character differs from the absent one, only the present one is wrapped, and
once one side is exhausted the rest of the other side is `wrapRest`. -/
def highlightLists : List Char → List Char → String × String
  | [], ns => ("", wrapRest ns)
  | o :: os, [] => (wrap o ++ wrapRest os, "")
  | o :: os, n :: ns =>
      let r := highlightLists os ns
      if o = n then (String.singleton o ++ r.1, String.singleton n ++ r.2)
      else (wrap o ++ r.1, wrap n ++ r.2)

/-- `highlight_diff(old_str, new_str)`: equal inputs are returned unchanged;
otherwise each position where the strings differ is highlighted in both
outputs. -/
def highlight_diff (old_str new_str : String) : String × String :=
  if old_str = new_str then (old_str, new_str)
  else highlightLists old_str.data new_str.data

/-- What the spec says position `i` contributes to the first (old) output of
`highlight_diff`: the character itself when both strings carry the same
character there, the wrapped character when they differ and old has a
character, nothing when old has no character at `i`. -/
def posMarkOld (os ns : List Char) (i : Nat) : String :=
  match os.get? i, ns.get? i with
  | some o, some n => if o = n then String.singleton o else wrap o
  | some o, none => wrap o
  | none, _ => ""

/-- What the spec says position `i` contributes to the second (new) output of
`highlight_diff`. -/
def posMarkNew (os ns : List Char) (i : Nat) : String :=
  match os.get? i, ns.get? i with
  | some o, some n => if o = n then String.singleton n else wrap n
  | none, some n => wrap n
  | _, none => ""

/-- Concatenation of a list of strings, used to state the positionwise
characterisation of `highlight_diff`. -/
def joinS (l : List String) : String := l.foldr (· ++ ·) ""

/-- Left-to-right deletion of every occurrence of the two marker sequences
`"\x1b[7m"` and `"\x1b[0m"` from a character list. -/
def stripMarkersL : List Char → List Char
  | [] => []
  | [c] => [c]
  | [c1, c2] => [c1, c2]
  | [c1, c2, c3] => [c1, c2, c3]
  | c1 :: c2 :: c3 :: c4 :: rest =>
      if c1 = '\x1b' ∧ c2 = '[' ∧ (c3 = '7' ∨ c3 = '0') ∧ c4 = 'm' then stripMarkersL rest
      else c1 :: stripMarkersL (c2 :: c3 :: c4 :: rest)

/-- Deletion of every occurrence of the marker sequences from a string. -/
def stripMarkers (s : String) : String := String.mk (stripMarkersL s.data)

/-- `truncate_value(value, max_length=20)`.  `max_length` is a Python `int`,
so it is modelled as an integer; `value[:max_length-3]` uses Python slice
semantics, where a negative stop counts from the end of the string. -/
def pySliceTo (s : String) (stop : Int) : String :=
  if 0 ≤ stop then String.mk (s.data.take stop.toNat)
  else String.mk (s.data.take (s.length - (-stop).toNat))

/-- `truncate_value(value, max_length)`: unchanged when it fits, otherwise the
first `max_length - 3` characters followed by `"..."`. -/
def truncate_value (value : String) (max_length : Int) : String :=
  if (value.length : Int) > max_length then pySliceTo value (max_length - 3) ++ "..."
  else value

/-- A concrete call for command `"A"` with direction `"RX"` and empty dump,
used in witness instances. -/
def callA (v : String) (ts : Nat) : UpdateCall :=
  { command := "A", value := v, direction := "RX", timestamp := ts, dump := "" }

/-- Concrete first call: command `"A"`, value `"0"`. -/
def u0 : UpdateCall := callA "0" 0

/-- Concrete second call: command `"A"`, value `"1"`. -/
def u1 : UpdateCall := callA "1" 1

/-- The change record produced when `u1` overwrites the state left by `u0`. -/
def rc1 : ChangeRecord := mkChangeRecord (stateOf u0) u1

/-- Tracker after the single call `u0`. -/
def t1 : S21CommandTracker := applyCall mkTracker u0

/-- Six consecutive value changes for command `"A"`, filling the history to
its bound of five records. -/
def exCalls6 : List UpdateCall :=
  [callA "0" 0, callA "1" 1, callA "2" 2, callA "3" 3, callA "4" 4, callA "5" 5]

/-- Tracker after `exCalls6`: five records in `recent_changes`. -/
def exTracker : S21CommandTracker := applyCalls mkTracker exCalls6

theorem dictGet_dictSet (d : List (String × CommandState)) (k c : String) (v : CommandState) :
    dictGet (dictSet d k v) c = if k = c then some v else dictGet d c := by
  induction d with
  | nil => simp [dictGet, dictSet]
  | cons hd tl ih =>
      obtain ⟨k', v'⟩ := hd
      by_cases h : k' = k
      · subst h
        by_cases hc : k' = c <;> simp [dictSet, dictGet, hc]
      · simp only [dictSet, if_neg h, dictGet, ih]
        by_cases hc : k' = c
        · subst hc
          have hk : k ≠ k' := fun hh => h hh.symm
          simp [hk]
        · simp [hc]

theorem mem_keys_dictSet (d : List (String × CommandState)) (k c : String) (v : CommandState) :
    c ∈ (dictSet d k v).map Prod.fst ↔ c ∈ d.map Prod.fst ∨ c = k := by
  induction d with
  | nil => simp [dictSet]
  | cons hd tl ih =>
      obtain ⟨k', v'⟩ := hd
      by_cases h : k' = k
      · subst h
        simp [dictSet]
        tauto
      · simp [dictSet, h, ih]
        tauto

theorem nodup_keys_dictSet (d : List (String × CommandState)) (k : String) (v : CommandState)
    (hd : (d.map Prod.fst).Nodup) : ((dictSet d k v).map Prod.fst).Nodup := by
  induction d with
  | nil => simp [dictSet]
  | cons p tl ih =>
      obtain ⟨k', v'⟩ := p
      simp only [List.map_cons, List.nodup_cons] at hd
      by_cases h : k' = k
      · subst h
        simpa [dictSet] using hd
      · simp only [dictSet, if_neg h, List.map_cons, List.nodup_cons]
        refine ⟨?_, ih hd.2⟩
        rw [mem_keys_dictSet]
        rintro (hin | rfl)
        · exact hd.1 hin
        · exact h rfl

theorem dictGet_eq_none_iff (d : List (String × CommandState)) (c : String) :
    dictGet d c = none ↔ c ∉ d.map Prod.fst := by
  induction d with
  | nil => simp [dictGet]
  | cons hd tl ih =>
      obtain ⟨k', v'⟩ := hd
      by_cases h : k' = c
      · subst h
        simp [dictGet]
      · simp [dictGet, h, ih, Ne.symm h]

theorem update_command_commands (t : S21CommandTracker) (command value direction : String)
    (timestamp : Nat) (dump : String) :
    (update_command t command value direction timestamp dump).1.commands =
      dictSet t.commands command
        { value := value, direction := direction, timestamp := timestamp, dump := dump } := by
  cases h : dictGet t.commands command <;> simp [update_command, h]

theorem dictGet_applyCall (t : S21CommandTracker) (u : UpdateCall) (c : String) :
    dictGet (applyCall t u).commands c =
      if u.command = c then some (stateOf u) else dictGet t.commands c := by
  rw [applyCall, update_command_commands, dictGet_dictSet]
  rfl

theorem lastCallFor_nil (c : String) : lastCallFor [] c = none := rfl

theorem lastCallFor_eq_none_iff (calls : List UpdateCall) (c : String) :
    lastCallFor calls c = none ↔ c ∉ calls.map UpdateCall.command := by
  induction calls with
  | nil => simp [lastCallFor]
  | cons u rest ih =>
      simp only [lastCallFor, List.map_cons, List.mem_cons]
      cases h : lastCallFor rest c with
      | some w => simp [h] at ih ⊢; tauto
      | none =>
          rw [h] at ih
          have hrest : c ∉ rest.map UpdateCall.command := ih.mp rfl
          by_cases hc : u.command = c
          · simp [hc, hrest]
          · simp [hc, Ne.symm hc, hrest]

theorem dictGet_applyCalls (calls : List UpdateCall) :
    ∀ (t : S21CommandTracker) (c : String),
      dictGet (applyCalls t calls).commands c =
        orElseO ((lastCallFor calls c).map stateOf) (dictGet t.commands c) := by
  induction calls with
  | nil => intro t c; simp [applyCalls, lastCallFor, orElseO]
  | cons u rest ih =>
      intro t c
      have hstep : applyCalls t (u :: rest) = applyCalls (applyCall t u) rest := rfl
      rw [hstep, ih]
      simp only [lastCallFor]
      cases h : lastCallFor rest c with
      | some w => simp [orElseO]
      | none =>
          simp only [Option.map_none, orElseO, dictGet_applyCall]
          by_cases hc : u.command = c
          · simp [hc]
          · simp [hc]

theorem nodup_keys_applyCall (t : S21CommandTracker) (u : UpdateCall)
    (h : (t.commands.map Prod.fst).Nodup) :
    ((applyCall t u).commands.map Prod.fst).Nodup := by
  rw [applyCall, update_command_commands]
  exact nodup_keys_dictSet _ _ _ h

theorem nodup_keys_applyCalls (calls : List UpdateCall) :
    ∀ t : S21CommandTracker, (t.commands.map Prod.fst).Nodup →
      ((applyCalls t calls).commands.map Prod.fst).Nodup := by
  induction calls with
  | nil => intro t h; exact h
  | cons u rest ih => intro t h; exact ih _ (nodup_keys_applyCall t u h)

/-- C1: Last-write-wins state.  After any sequence of `update_command` calls
(arbitrary strings for value, dump and direction, stored as-is), the tracker's
command mapping has no duplicate command keys, maps every command to exactly
the value, dump, direction and timestamp of that command's most recent call,
and contains a key exactly for each distinct command seen in the sequence. -/
theorem update_command_last_write_wins (calls : List UpdateCall) :
    ((applyCalls mkTracker calls).commands.map Prod.fst).Nodup
    ∧ (∀ c : String,
        dictGet (applyCalls mkTracker calls).commands c = (lastCallFor calls c).map stateOf)
    ∧ (∀ c : String,
        c ∈ (applyCalls mkTracker calls).commands.map Prod.fst
          ↔ c ∈ calls.map UpdateCall.command) := by
  have hget : ∀ c : String,
      dictGet (applyCalls mkTracker calls).commands c = (lastCallFor calls c).map stateOf := by
    intro c
    rw [dictGet_applyCalls]
    cases h : lastCallFor calls c <;> simp [h, orElseO, mkTracker, dictGet]
  refine ⟨nodup_keys_applyCalls calls mkTracker (by exact List.nodup_nil), hget, ?_⟩
  intro c
  constructor
  · intro hmem
    by_contra hnot
    have hnone : lastCallFor calls c = none := (lastCallFor_eq_none_iff calls c).mpr hnot
    have := hget c
    rw [hnone] at this
    exact absurd hmem ((dictGet_eq_none_iff _ c).mp this)
  · intro hmem
    by_contra hnot
    have hnone : dictGet (applyCalls mkTracker calls).commands c = none :=
      (dictGet_eq_none_iff _ c).mpr hnot
    rw [hget c] at hnone
    have : lastCallFor calls c = none := by
      cases h : lastCallFor calls c
      · rfl
      · rw [h] at hnone; simp at hnone
    exact absurd hmem (by simpa using (lastCallFor_eq_none_iff calls c).mp this)

theorem update_command_of_none (t : S21CommandTracker) (u : UpdateCall)
    (h : dictGet t.commands u.command = none) :
    (update_command t u.command u.value u.direction u.timestamp u.dump).2 = true
    ∧ (update_command t u.command u.value u.direction u.timestamp u.dump).1.recent_changes
        = t.recent_changes := by
  simp [update_command, h]

theorem update_command_snd_of_some (t : S21CommandTracker) (u : UpdateCall)
    (old : CommandState) (h : dictGet t.commands u.command = some old) :
    (update_command t u.command u.value u.direction u.timestamp u.dump).2
      = (old.value != u.value || old.dump != u.dump || old.direction != u.direction) := by
  simp [update_command, h]

theorem recent_changes_of_same (t : S21CommandTracker) (u : UpdateCall)
    (old : CommandState) (h : dictGet t.commands u.command = some old)
    (hv : old.value = u.value) (hd : old.dump = u.dump) :
    (update_command t u.command u.value u.direction u.timestamp u.dump).1.recent_changes
      = t.recent_changes := by
  simp [update_command, h, hv, hd]

theorem recent_changes_of_diff (t : S21CommandTracker) (u : UpdateCall)
    (old : CommandState) (h : dictGet t.commands u.command = some old)
    (hne : old.value ≠ u.value ∨ old.dump ≠ u.dump) :
    (update_command t u.command u.value u.direction u.timestamp u.dump).1.recent_changes
      = (if (t.recent_changes ++ [mkChangeRecord old u]).length > 5
         then (t.recent_changes ++ [mkChangeRecord old u]).drop 1
         else t.recent_changes ++ [mkChangeRecord old u]) := by
  have hvc : (old.value != u.value || old.dump != u.dump) = true := by
    rcases hne with hne | hne <;> simp [bne_iff_ne, hne]
  simp only [update_command, h]
  simp only [Bool.or_assoc] at hvc ⊢
  simp [hvc, mkChangeRecord, Bool.or_assoc]
  intro hv hd _
  rcases hne with hne | hne
  · exact absurd hv hne
  · exact absurd hd hne

theorem recent_changes_le_applyCall (t : S21CommandTracker) (u : UpdateCall)
    (h : t.recent_changes.length ≤ 5) : (applyCall t u).recent_changes.length ≤ 5 := by
  rw [applyCall]
  cases hg : dictGet t.commands u.command with
  | none => rw [(update_command_of_none t u hg).2]; exact h
  | some old =>
      by_cases heq : old.value = u.value ∧ old.dump = u.dump
      · rw [recent_changes_of_same t u old hg heq.1 heq.2]; exact h
      · have hne : old.value ≠ u.value ∨ old.dump ≠ u.dump := by
          rcases not_and_or.mp heq with h' | h'
          · exact Or.inl h'
          · exact Or.inr h'
        rw [recent_changes_of_diff t u old hg hne]
        have hap : (t.recent_changes ++ [mkChangeRecord old u]).length
            = t.recent_changes.length + 1 := by simp
        split
        · rw [List.length_drop, hap]; omega
        · rename_i hlen
          rw [hap] at hlen ⊢
          omega

theorem recent_changes_le_applyCalls (calls : List UpdateCall) :
    ∀ t : S21CommandTracker, t.recent_changes.length ≤ 5 →
      (applyCalls t calls).recent_changes.length ≤ 5 := by
  induction calls with
  | nil => intro t h; exact h
  | cons u rest ih => intro t h; exact ih _ (recent_changes_le_applyCall t u h)

/-- C2: Bounded FIFO history.  After every sequence of `update_command` calls
the `recent_changes` list has length at most 5; and when a change-worthy
update arrives while the history already holds 5 records, the oldest record is
evicted, the new record is appended at the end, and the surviving records keep
their arrival order. -/
theorem recent_changes_bounded_fifo :
    (∀ calls : List UpdateCall, (applyCalls mkTracker calls).recent_changes.length ≤ 5)
    ∧ (∀ (t : S21CommandTracker) (u : UpdateCall) (old : CommandState),
        dictGet t.commands u.command = some old →
        (old.value ≠ u.value ∨ old.dump ≠ u.dump) →
        t.recent_changes.length = 5 →
        (applyCall t u).recent_changes = t.recent_changes.tail ++ [mkChangeRecord old u]) := by
  constructor
  · intro calls
    exact recent_changes_le_applyCalls calls mkTracker (by simp [mkTracker])
  · intro t u old hg hne hlen
    rw [applyCall, recent_changes_of_diff t u old hg hne]
    rw [if_pos (by simp [hlen])]
    rw [List.drop_append_of_le_length (by omega), List.drop_one]

/-- C3: First-seen command.  An `update_command` call for a command not yet in
the mapping returns `true` and appends nothing to the change history; and
every record present in the history after an update either was already there
or was created from a prior state of the same command whose value or dump
differs from the new arguments. -/
theorem first_seen_no_history :
    (∀ (t : S21CommandTracker) (u : UpdateCall),
        dictGet t.commands u.command = none →
        (update_command t u.command u.value u.direction u.timestamp u.dump).2 = true
        ∧ (update_command t u.command u.value u.direction u.timestamp u.dump).1.recent_changes
            = t.recent_changes)
    ∧ (∀ (t : S21CommandTracker) (u : UpdateCall) (rc : ChangeRecord),
        rc ∈ (applyCall t u).recent_changes →
        rc ∈ t.recent_changes
        ∨ ∃ old : CommandState,
            dictGet t.commands u.command = some old
            ∧ (old.value ≠ u.value ∨ old.dump ≠ u.dump)
            ∧ rc = mkChangeRecord old u) := by
  refine ⟨fun t u h => update_command_of_none t u h, ?_⟩
  intro t u rc hmem
  rw [applyCall] at hmem
  cases hg : dictGet t.commands u.command with
  | none => rw [(update_command_of_none t u hg).2] at hmem; exact Or.inl hmem
  | some old =>
      by_cases heq : old.value = u.value ∧ old.dump = u.dump
      · rw [recent_changes_of_same t u old hg heq.1 heq.2] at hmem
        exact Or.inl hmem
      · have hne : old.value ≠ u.value ∨ old.dump ≠ u.dump := by
          rcases not_and_or.mp heq with h' | h'
          · exact Or.inl h'
          · exact Or.inr h'
        rw [recent_changes_of_diff t u old hg hne] at hmem
        have hmem' : rc ∈ t.recent_changes ++ [mkChangeRecord old u] := by
          by_cases hlen : (t.recent_changes ++ [mkChangeRecord old u]).length > 5
          · rw [if_pos hlen] at hmem; exact List.mem_of_mem_drop hmem
          · rw [if_neg hlen] at hmem; exact hmem
        rcases List.mem_append.mp hmem' with hmem' | hmem'
        · exact Or.inl hmem'
        · exact Or.inr ⟨old, rfl, hne, by simpa using hmem'⟩

/-- C4: Direction-only change.  For a tracked command, a call with the same
value and dump but a different direction returns `true`, stores the new
direction and timestamp for the command, and leaves the change history exactly
as it was. -/
theorem direction_only_change (t : S21CommandTracker) (u : UpdateCall) (old : CommandState)
    (hg : dictGet t.commands u.command = some old)
    (hv : old.value = u.value) (hd : old.dump = u.dump)
    (hdir : old.direction ≠ u.direction) :
    (update_command t u.command u.value u.direction u.timestamp u.dump).2 = true
    ∧ (update_command t u.command u.value u.direction u.timestamp u.dump).1.recent_changes
        = t.recent_changes
    ∧ dictGet (update_command t u.command u.value u.direction u.timestamp u.dump).1.commands
        u.command = some (stateOf u) := by
  refine ⟨?_, recent_changes_of_same t u old hg hv hd, ?_⟩
  · rw [update_command_snd_of_some t u old hg]
    simp [bne_iff_ne, hdir]
  · rw [update_command_commands, dictGet_dictSet]
    simp [stateOf]

/-- C5: No-op update frame.  For a tracked command, a call whose value, dump
and direction all equal the stored state returns `false`, refreshes only the
stored timestamp to the new argument, and leaves the change history and every
other command's state unchanged. -/
theorem noop_update_frame (t : S21CommandTracker) (u : UpdateCall) (old : CommandState)
    (hg : dictGet t.commands u.command = some old)
    (hv : old.value = u.value) (hd : old.dump = u.dump)
    (hdir : old.direction = u.direction) :
    (update_command t u.command u.value u.direction u.timestamp u.dump).2 = false
    ∧ (update_command t u.command u.value u.direction u.timestamp u.dump).1.recent_changes
        = t.recent_changes
    ∧ dictGet (update_command t u.command u.value u.direction u.timestamp u.dump).1.commands
        u.command
        = some { value := old.value, direction := old.direction,
                 timestamp := u.timestamp, dump := old.dump }
    ∧ (∀ c : String, c ≠ u.command →
        dictGet (update_command t u.command u.value u.direction u.timestamp u.dump).1.commands c
          = dictGet t.commands c) := by
  refine ⟨?_, recent_changes_of_same t u old hg hv hd, ?_, ?_⟩
  · rw [update_command_snd_of_some t u old hg]
    simp [hv, hd, hdir]
  · rw [update_command_commands, dictGet_dictSet]
    simp [hv, hd, hdir]
  · intro c hc
    rw [update_command_commands, dictGet_dictSet]
    rw [if_neg (fun h => hc h.symm)]

/-- Witness for C2 at a tracker holding five records and a sixth change-worthy
update for command `"A"`. -/
theorem recent_changes_bounded_fifo_witness :
    exTracker.recent_changes.length = 5
    ∧ (applyCall exTracker (callA "6" 6)).recent_changes
        = exTracker.recent_changes.tail
          ++ [mkChangeRecord
                { value := "5", direction := "RX", timestamp := 5, dump := "" }
                (callA "6" 6)] :=
  ⟨by decide,
   recent_changes_bounded_fifo.2 exTracker (callA "6" 6)
     { value := "5", direction := "RX", timestamp := 5, dump := "" }
     (by decide) (Or.inl (by decide)) (by decide)⟩

/-- Witness for C3: the first call for `"A"` returns `true` and leaves the
history empty, and the single record present after the second call is
accounted for by a differing prior state. -/
theorem first_seen_no_history_witness :
    ((update_command mkTracker u0.command u0.value u0.direction u0.timestamp u0.dump).2 = true
      ∧ (update_command mkTracker u0.command u0.value u0.direction
            u0.timestamp u0.dump).1.recent_changes = mkTracker.recent_changes)
    ∧ (rc1 ∈ t1.recent_changes
        ∨ ∃ old : CommandState,
            dictGet t1.commands u1.command = some old
            ∧ (old.value ≠ u1.value ∨ old.dump ≠ u1.dump)
            ∧ rc1 = mkChangeRecord old u1) :=
  ⟨first_seen_no_history.1 mkTracker u0 (by decide),
   first_seen_no_history.2 t1 u1 rc1 (by decide)⟩

/-- Witness for C4: after `u0`, updating `"A"` with the same value and dump
but direction `"TX"` returns `true`, stores the new direction/timestamp and
leaves the history unchanged. -/
theorem direction_only_change_witness :
    (update_command t1 "A" "0" "TX" 2 "").2 = true
    ∧ (update_command t1 "A" "0" "TX" 2 "").1.recent_changes = t1.recent_changes
    ∧ dictGet (update_command t1 "A" "0" "TX" 2 "").1.commands "A"
        = some { value := "0", direction := "TX", timestamp := 2, dump := "" } :=
  direction_only_change t1
    { command := "A", value := "0", direction := "TX", timestamp := 2, dump := "" }
    (stateOf u0) (by decide) rfl rfl (by decide)

/-- Witness for C5: after `u0`, re-sending the identical value, dump and
direction for `"A"` returns `false`, refreshes only the timestamp and leaves
the state of command `"B"` alone. -/
theorem noop_update_frame_witness :
    (update_command t1 "A" "0" "RX" 5 "").2 = false
    ∧ (update_command t1 "A" "0" "RX" 5 "").1.recent_changes = t1.recent_changes
    ∧ dictGet (update_command t1 "A" "0" "RX" 5 "").1.commands "A"
        = some { value := "0", direction := "RX", timestamp := 5, dump := "" }
    ∧ dictGet (update_command t1 "A" "0" "RX" 5 "").1.commands "B"
        = dictGet t1.commands "B" :=
  have h := noop_update_frame t1
    { command := "A", value := "0", direction := "RX", timestamp := 5, dump := "" }
    (stateOf u0) (by decide) rfl rfl rfl
  ⟨h.1, h.2.1, h.2.2.1, h.2.2.2 "B" (by decide)⟩

/-- C6: Sorted snapshot.  `get_sorted_commands` is computed from the current
mapping alone and returns exactly the tracked (command, state) pairs — a
permutation of the mapping — in ascending lexicographic order of the command
identifier. -/
theorem get_sorted_commands_spec (t : S21CommandTracker) :
    (get_sorted_commands t).Perm t.commands
    ∧ List.Sorted (fun a b : String × CommandState => a.1 ≤ b.1) (get_sorted_commands t) := by
  constructor
  · exact List.mergeSort_perm t.commands _
  · have htrans : ∀ a b c : String × CommandState,
        (decide (a.1 ≤ b.1)) = true → (decide (b.1 ≤ c.1)) = true →
          (decide (a.1 ≤ c.1)) = true := by
      intro a b c hab hbc
      simp only [decide_eq_true_eq] at hab hbc ⊢
      exact le_trans hab hbc
    have htotal : ∀ a b : String × CommandState,
        ((decide (a.1 ≤ b.1)) || (decide (b.1 ≤ a.1))) = true := by
      intro a b
      simp only [Bool.or_eq_true, decide_eq_true_eq]
      exact le_total a.1 b.1
    have h := @List.sorted_mergeSort (String × CommandState)
        (fun a b => decide (a.1 ≤ b.1)) htrans htotal t.commands
    exact List.Pairwise.imp (fun hb => by simpa using hb) h

theorem joinS_range_succ (f : Nat → String) (k : Nat) :
    joinS ((List.range (k + 1)).map f)
      = f 0 ++ joinS ((List.range k).map (fun i => f (i + 1))) := by
  have hfe : (f ∘ Nat.succ) = fun i => f (i + 1) := funext fun _ => rfl
  rw [List.range_succ_eq_map]
  simp only [List.map_cons, List.map_map, hfe]
  rfl

theorem empty_append_str (s : String) : "" ++ s = s :=
  String.ext (by simp [String.data_append])

theorem posMarkOld_cons_cons (o n : Char) (os ns : List Char) (i : Nat) :
    posMarkOld (o :: os) (n :: ns) (i + 1) = posMarkOld os ns i := rfl

theorem posMarkNew_cons_cons (o n : Char) (os ns : List Char) (i : Nat) :
    posMarkNew (o :: os) (n :: ns) (i + 1) = posMarkNew os ns i := rfl

theorem posMarkOld_cons_nil (o : Char) (os : List Char) (i : Nat) :
    posMarkOld (o :: os) [] (i + 1) = posMarkOld os [] i := rfl

theorem posMarkNew_cons_nil (o : Char) (os : List Char) (i : Nat) :
    posMarkNew (o :: os) [] (i + 1) = posMarkNew os [] i := rfl

theorem posMarkOld_nil (ns : List Char) (i : Nat) : posMarkOld [] ns i = "" := rfl

theorem posMarkNew_nil_cons (n : Char) (ns : List Char) (i : Nat) :
    posMarkNew [] (n :: ns) (i + 1) = posMarkNew [] ns i := rfl

theorem map_shift_old_cc (o n : Char) (os ns : List Char) (k : Nat) :
    (List.range k).map (fun i => posMarkOld (o :: os) (n :: ns) (i + 1))
      = (List.range k).map (posMarkOld os ns) :=
  List.map_congr_left fun i _ => posMarkOld_cons_cons o n os ns i

theorem map_shift_new_cc (o n : Char) (os ns : List Char) (k : Nat) :
    (List.range k).map (fun i => posMarkNew (o :: os) (n :: ns) (i + 1))
      = (List.range k).map (posMarkNew os ns) :=
  List.map_congr_left fun i _ => posMarkNew_cons_cons o n os ns i

theorem map_shift_old_cn (o : Char) (os : List Char) (k : Nat) :
    (List.range k).map (fun i => posMarkOld (o :: os) [] (i + 1))
      = (List.range k).map (posMarkOld os []) :=
  List.map_congr_left fun i _ => posMarkOld_cons_nil o os i

theorem map_shift_new_cn (o : Char) (os : List Char) (k : Nat) :
    (List.range k).map (fun i => posMarkNew (o :: os) [] (i + 1))
      = (List.range k).map (posMarkNew os []) :=
  List.map_congr_left fun i _ => posMarkNew_cons_nil o os i

theorem map_shift_new_nc (n : Char) (ns : List Char) (k : Nat) :
    (List.range k).map (fun i => posMarkNew [] (n :: ns) (i + 1))
      = (List.range k).map (posMarkNew [] ns) :=
  List.map_congr_left fun i _ => posMarkNew_nil_cons n ns i

theorem map_posMarkOld_nil (ns : List Char) (k : Nat) :
    (List.range k).map (posMarkOld [] ns) = (List.range k).map (fun _ => "") :=
  List.map_congr_left fun i _ => posMarkOld_nil ns i

theorem joinS_all_empty (l : List Nat) : joinS (l.map (fun _ => "")) = "" := by
  induction l with
  | nil => rfl
  | cons a l ih =>
      show "" ++ joinS (l.map (fun _ => "")) = ""
      rw [ih, empty_append_str]

theorem joinS_posMarkOld_nil (ns : List Char) (k : Nat) :
    joinS ((List.range k).map (posMarkOld [] ns)) = "" := by
  rw [map_posMarkOld_nil, joinS_all_empty]

theorem joinS_posMarkNew_wrapRest (ns : List Char) :
    joinS ((List.range ns.length).map (posMarkNew [] ns)) = wrapRest ns := by
  induction ns with
  | nil => rfl
  | cons n ns ih =>
      rw [List.length_cons, joinS_range_succ, map_shift_new_nc, ih]
      rfl

theorem joinS_posMarkOld_wrapRest (os : List Char) :
    joinS ((List.range os.length).map (posMarkOld os [])) = wrapRest os := by
  induction os with
  | nil => rfl
  | cons o os ih =>
      rw [List.length_cons, joinS_range_succ, map_shift_old_cn, ih]
      rfl

theorem joinS_posMarkNew_nil (os : List Char) :
    joinS ((List.range os.length).map (posMarkNew os [])) = "" := by
  induction os with
  | nil => rfl
  | cons o os ih =>
      rw [List.length_cons, joinS_range_succ, map_shift_new_cn, ih]
      exact empty_append_str ""

theorem highlightLists_eq (os : List Char) : ∀ ns : List Char,
    highlightLists os ns
      = (joinS ((List.range (max os.length ns.length)).map (posMarkOld os ns)),
         joinS ((List.range (max os.length ns.length)).map (posMarkNew os ns))) := by
  induction os with
  | nil =>
      intro ns
      have hmax : max (List.length ([] : List Char)) ns.length = ns.length := by simp
      show ("", wrapRest ns) = _
      rw [hmax, joinS_posMarkOld_nil, joinS_posMarkNew_wrapRest]
  | cons o os ih =>
      intro ns
      cases ns with
      | nil =>
          have hmax : max (o :: os).length (List.length ([] : List Char)) = os.length + 1 := by
            simp
          show (wrap o ++ wrapRest os, "") = _
          rw [hmax, joinS_range_succ, joinS_range_succ, map_shift_old_cn, map_shift_new_cn,
            joinS_posMarkOld_wrapRest, joinS_posMarkNew_nil]
          have h0o : posMarkOld (o :: os) [] 0 = wrap o := rfl
          have h0n : posMarkNew (o :: os) [] 0 = "" := rfl
          rw [h0o, h0n, Prod.mk.injEq]
          exact ⟨rfl, (empty_append_str "").symm⟩
      | cons n ns =>
          have hmax : max (o :: os).length (n :: ns).length = max os.length ns.length + 1 := by
            simp only [List.length_cons]
            omega
          rw [hmax, joinS_range_succ, joinS_range_succ, map_shift_old_cc, map_shift_new_cc]
          have h0o : posMarkOld (o :: os) (n :: ns) 0
              = if o = n then String.singleton o else wrap o := rfl
          have h0n : posMarkNew (o :: os) (n :: ns) 0
              = if o = n then String.singleton n else wrap n := rfl
          rw [h0o, h0n]
          simp only [highlightLists, ih ns]
          by_cases h : o = n <;> simp [h]

theorem highlightLists_self (os : List Char) :
    highlightLists os os = (String.mk os, String.mk os) := by
  induction os with
  | nil => rfl
  | cons o os ih =>
      simp only [highlightLists, ih, if_pos rfl]
      rw [Prod.mk.injEq]
      constructor <;> exact String.ext (by simp [String.data_append, String.singleton])

/-- C7: Diff marking is exactly positionwise.  `highlight_diff` equals, on
both outputs, the concatenation over positions `0 ≤ i < max(len(old), len(new))`
of the spec's per-position contribution: the character itself where the two
strings agree, the highlight-wrapped character where they differ and the
string has a character there, and nothing where it has none. -/
theorem highlight_diff_positionwise (old_str new_str : String) :
    highlight_diff old_str new_str
      = (joinS ((List.range (max old_str.length new_str.length)).map
            (posMarkOld old_str.data new_str.data)),
         joinS ((List.range (max old_str.length new_str.length)).map
            (posMarkNew old_str.data new_str.data))) := by
  have hlen : ∀ s : String, s.length = s.data.length := fun s => rfl
  rw [highlight_diff]
  by_cases h : old_str = new_str
  · subst h
    rw [if_pos rfl, hlen, ← highlightLists_eq old_str.data old_str.data,
      highlightLists_self]
  · rw [if_neg h, highlightLists_eq, hlen, hlen]

/-- Concrete instances of C7: `highlight_diff("ABC", "ABD")` marks exactly the
third character in both outputs, and `highlight_diff("AB", "ABC")` marks the
third position in the new string only. -/
theorem highlight_diff_positionwise_witness :
    highlight_diff "ABC" "ABD" = ("AB" ++ wrap 'C', "AB" ++ wrap 'D')
    ∧ highlight_diff "AB" "ABC" = ("AB", "AB" ++ wrap 'C') := by
  constructor
  · rw [highlight_diff_positionwise "ABC" "ABD"]
    decide
  · rw [highlight_diff_positionwise "AB" "ABC"]
    decide

/-- C8: Identity on equal inputs: `highlight_diff(s, s) = (s, s)` with no
markers inserted. -/
theorem highlight_diff_self (s : String) : highlight_diff s s = (s, s) := by
  simp [highlight_diff]

theorem strip_invert_head (rest : List Char) :
    stripMarkersL ('\x1b' :: '[' :: '7' :: 'm' :: rest) = stripMarkersL rest := by
  show (if ('\x1b' : Char) = '\x1b' ∧ ('[' : Char) = '['
          ∧ (('7' : Char) = '7' ∨ ('7' : Char) = '0') ∧ ('m' : Char) = 'm'
        then stripMarkersL rest
        else '\x1b' :: stripMarkersL ('[' :: '7' :: 'm' :: rest)) = stripMarkersL rest
  rw [if_pos ⟨rfl, rfl, Or.inl rfl, rfl⟩]

theorem strip_reset_head (rest : List Char) :
    stripMarkersL ('\x1b' :: '[' :: '0' :: 'm' :: rest) = stripMarkersL rest := by
  show (if ('\x1b' : Char) = '\x1b' ∧ ('[' : Char) = '['
          ∧ (('0' : Char) = '7' ∨ ('0' : Char) = '0') ∧ ('m' : Char) = 'm'
        then stripMarkersL rest
        else '\x1b' :: stripMarkersL ('[' :: '0' :: 'm' :: rest)) = stripMarkersL rest
  rw [if_pos ⟨rfl, rfl, Or.inr rfl, rfl⟩]

theorem strip_cons_ne (c : Char) (l : List Char) (h : c ≠ '\x1b') :
    stripMarkersL (c :: l) = c :: stripMarkersL l := by
  match l with
  | [] => rfl
  | [c2] => rfl
  | [c2, c3] => rfl
  | c2 :: c3 :: c4 :: rest =>
      show (if c = '\x1b' ∧ c2 = '[' ∧ (c3 = '7' ∨ c3 = '0') ∧ c4 = 'm'
            then stripMarkersL rest
            else c :: stripMarkersL (c2 :: c3 :: c4 :: rest)) = _
      rw [if_neg (fun hcond => h hcond.1)]

theorem strip_no_esc (l : List Char) (h : ∀ c ∈ l, c ≠ '\x1b') : stripMarkersL l = l := by
  induction l with
  | nil => rfl
  | cons c l ih =>
      rw [strip_cons_ne c l (h c (by simp)), ih (fun c' hc' => h c' (by simp [hc']))]

theorem wrap_data (c : Char) :
    (wrap c).data = '\x1b' :: '[' :: '7' :: 'm' :: c :: '\x1b' :: '[' :: '0' :: 'm' :: [] := by
  show (INVERT ++ String.singleton c ++ RESET).data = _
  rw [String.data_append, String.data_append]
  rfl

theorem strip_wrap_append (c : Char) (h : c ≠ '\x1b') (l : List Char) :
    stripMarkersL ((wrap c).data ++ l) = c :: stripMarkersL l := by
  rw [wrap_data]
  show stripMarkersL ('\x1b' :: '[' :: '7' :: 'm' :: c :: '\x1b' :: '[' :: '0' :: 'm' :: l)
      = c :: stripMarkersL l
  rw [strip_invert_head, strip_cons_ne c _ h, strip_reset_head]

theorem strip_wrapRest (os : List Char) (h : ∀ c ∈ os, c ≠ '\x1b') :
    stripMarkersL ((wrapRest os).data) = os := by
  induction os with
  | nil => rfl
  | cons o os ih =>
      have hdata : (wrapRest (o :: os)).data = (wrap o).data ++ (wrapRest os).data :=
        String.data_append (wrap o) (wrapRest os)
      rw [hdata, strip_wrap_append o (h o (by simp)) _,
        ih (fun c hc => h c (by simp [hc]))]

theorem strip_highlightLists (os : List Char) : ∀ ns : List Char,
    ((∀ c ∈ os, c ≠ '\x1b') → stripMarkersL ((highlightLists os ns).1.data) = os)
    ∧ ((∀ c ∈ ns, c ≠ '\x1b') → stripMarkersL ((highlightLists os ns).2.data) = ns) := by
  induction os with
  | nil =>
      intro ns
      exact ⟨fun _ => rfl, fun hns => strip_wrapRest ns hns⟩
  | cons o os ih =>
      intro ns
      cases ns with
      | nil =>
          constructor
          · intro hos
            show stripMarkersL ((wrap o ++ wrapRest os).data) = o :: os
            rw [String.data_append, strip_wrap_append o (hos o (by simp)),
              strip_wrapRest os (fun c hc => hos c (by simp [hc]))]
          · intro _
            rfl
      | cons n ns =>
          constructor
          · intro hos
            have ho : o ≠ '\x1b' := hos o (by simp)
            have ih1 := (ih ns).1 (fun c hc => hos c (by simp [hc]))
            by_cases h : o = n
            · simp only [highlightLists, if_pos h]
              show stripMarkersL ((String.singleton o ++ (highlightLists os ns).1).data) = o :: os
              rw [String.data_append]
              show stripMarkersL (o :: (highlightLists os ns).1.data) = o :: os
              rw [strip_cons_ne o _ ho, ih1]
            · simp only [highlightLists, if_neg h]
              show stripMarkersL ((wrap o ++ (highlightLists os ns).1).data) = o :: os
              rw [String.data_append, strip_wrap_append o ho, ih1]
          · intro hns
            have hn : n ≠ '\x1b' := hns n (by simp)
            have ih2 := (ih ns).2 (fun c hc => hns c (by simp [hc]))
            by_cases h : o = n
            · simp only [highlightLists, if_pos h]
              show stripMarkersL ((String.singleton n ++ (highlightLists os ns).2).data) = n :: ns
              rw [String.data_append]
              show stripMarkersL (n :: (highlightLists os ns).2.data) = n :: ns
              rw [strip_cons_ne n _ hn, ih2]
            · simp only [highlightLists, if_neg h]
              show stripMarkersL ((wrap n ++ (highlightLists os ns).2).data) = n :: ns
              rw [String.data_append, strip_wrap_append n hn, ih2]

/-- C9 counterexample: for inputs that themselves contain the marker sequence
(here `old = new = "\x1b[7m"`), deleting the marker sequences from the first
output of `highlight_diff` does not give back the input. -/
theorem highlight_diff_strip_counterexample :
    stripMarkers (highlight_diff "\x1b[7m" "\x1b[7m").1 = ""
    ∧ ("\x1b[7m" : String) ≠ "" := by
  constructor
  · decide
  · decide

/-- C9 (amended): for strings that do not contain the escape character
`'\x1b'`, deleting every occurrence of the marker sequences `"\x1b[7m"` and
`"\x1b[0m"` from the two outputs of `highlight_diff` yields exactly the two
inputs — highlighting only inserts markers and never drops, duplicates or
reorders input characters. -/
theorem highlight_diff_strip_markers (old_str new_str : String)
    (hold : ∀ c ∈ old_str.data, c ≠ '\x1b') (hnew : ∀ c ∈ new_str.data, c ≠ '\x1b') :
    stripMarkers (highlight_diff old_str new_str).1 = old_str
    ∧ stripMarkers (highlight_diff old_str new_str).2 = new_str := by
  simp only [highlight_diff]
  by_cases h : old_str = new_str
  · subst h
    rw [if_pos rfl]
    constructor <;>
      · show String.mk (stripMarkersL old_str.data) = old_str
        rw [strip_no_esc old_str.data hold]
  · rw [if_neg h]
    constructor
    · show String.mk
          (stripMarkersL (highlightLists old_str.data new_str.data).1.data) = old_str
      rw [(strip_highlightLists old_str.data new_str.data).1 hold]
    · show String.mk
          (stripMarkersL (highlightLists old_str.data new_str.data).2.data) = new_str
      rw [(strip_highlightLists old_str.data new_str.data).2 hnew]

/-- Witness for the amended C9 at `("ABC", "ABD")`. -/
theorem highlight_diff_strip_markers_witness :
    stripMarkers (highlight_diff "ABC" "ABD").1 = "ABC"
    ∧ stripMarkers (highlight_diff "ABC" "ABD").2 = "ABD" :=
  highlight_diff_strip_markers "ABC" "ABD" (by decide) (by decide)

/-- C10: Truncation postcondition.  For `max_length ≥ 3`: a value that fits is
returned unchanged, and a longer value is cut to its first `max_length - 3`
characters plus `"..."`, a result of length exactly `max_length`.  For
`max_length < 3` the result can exceed `max_length`. -/
theorem truncate_value_spec :
    (∀ (value : String) (max_length : Int), 3 ≤ max_length →
      ((value.length : Int) ≤ max_length → truncate_value value max_length = value)
      ∧ (max_length < (value.length : Int) →
          truncate_value value max_length
              = String.mk (value.data.take (max_length - 3).toNat) ++ "..."
          ∧ ((truncate_value value max_length).length : Int) = max_length))
    ∧ (∃ (value : String) (max_length : Int), max_length < 3
        ∧ max_length < (value.length : Int)
        ∧ max_length < ((truncate_value value max_length).length : Int)) := by
  constructor
  · intro value ml h3
    constructor
    · intro hle
      rw [truncate_value, if_neg (not_lt.mpr hle)]
    · intro hlt
      have h03 : (0 : Int) ≤ ml - 3 := by omega
      have heq : truncate_value value ml
          = String.mk (value.data.take (ml - 3).toNat) ++ "..." := by
        rw [truncate_value, if_pos hlt, pySliceTo, if_pos h03]
      refine ⟨heq, ?_⟩
      rw [heq]
      have hlen : ((String.mk (value.data.take (ml - 3).toNat) ++ "...").length : Int)
          = ((value.data.take (ml - 3).toNat).length : Int) + 3 := by
        show (((String.mk (value.data.take (ml - 3).toNat) ++ "...").data).length : Int) = _
        rw [String.data_append, List.length_append]
        norm_num
      rw [hlen, List.length_take]
      have hv : value.length = value.data.length := rfl
      rw [hv] at hlt
      have hmin : min (ml - 3).toNat value.data.length = (ml - 3).toNat := by
        apply Nat.min_eq_left
        omega
      rw [hmin]
      omega
  · refine ⟨"abcd", 2, by decide, by decide, by decide⟩

/-- Witness for C10: a fitting value is unchanged, and a ten-character value
truncated to `max_length = 5` becomes its first two characters plus `"..."`,
of length exactly 5. -/
theorem truncate_value_spec_witness :
    truncate_value "abc" 20 = "abc"
    ∧ truncate_value "abcdefghij" 5 = String.mk ("abcdefghij".data.take 2) ++ "..."
    ∧ ((truncate_value "abcdefghij" 5).length : Int) = 5 :=
  ⟨(truncate_value_spec.1 "abc" 20 (by decide)).1 (by decide),
   ((truncate_value_spec.1 "abcdefghij" 5 (by decide)).2 (by decide)).1,
   ((truncate_value_spec.1 "abcdefghij" 5 (by decide)).2 (by decide)).2⟩

end S21
